import Mathlib

/-!
Verification of the duplicate-detection engine of `pyPDFDuplicateRemover.py`,
as a shallow embedding in Lean.

Modelling conventions:
* A page's extracted text is a `List Char` (Python iterates strings as
  characters; `textdistance`'s default Jaccard instance uses `qval = 1`,
  i.e. character multisets).
* An image content digest is modelled as a `Nat`; a page's image data is the
  list of digests in extraction order (`extract_images` appends one digest per
  entry of `getPageImageList`).
* Python floats are modelled as exact rationals `ℚ`: every similarity value
  in the program is a quotient of two small naturals, and the threshold is
  the literal `0.99`.
* `analyze` returning `None` is modelled by `Option`.
-/

/-- Multiset intersection size of the character counters of two texts:
`textdistance` builds `Counter`s of the two strings and takes `&`
(pointwise `min`), then sums the counts.  `Multiset.inter` has exactly the
pointwise-`min` counts. -/
def interCount (a b : List Char) : ℕ :=
  Multiset.card ((a : Multiset Char) ∩ (b : Multiset Char))

/-- Multiset union size of the character counters of two texts: `Counter.__or__`
is pointwise `max`, as is `Multiset.union`. -/
def unionCount (a b : List Char) : ℕ :=
  Multiset.card ((a : Multiset Char) ∪ (b : Multiset Char))

/-- Embedding of `td.jaccard.normalized_similarity(a, b)`.
`textdistance`'s `quick_answer` first returns the maximum (1) when the two
sequences are identical, then 0 when either is empty; otherwise the result is
`|counter(a) & counter(b)| / |counter(a) | counter(b)|`. For the Jaccard
instance `maximum` is 1, so `normalized_similarity` equals the raw value. -/
def normalized_similarity (a b : List Char) : ℚ :=
  if a = b then 1
  else if a = [] ∨ b = [] then 0
  else mkRat (interCount a b) (unionCount a b)

/-- Embedding of the `Result_Dict` TypedDict: `{"px": i, "py": k, "sim": sim}`. -/
structure Result_Dict where
  px : ℕ
  py : ℕ
  sim : ℚ
  deriving DecidableEq, Repr

/-- One iteration of the inner loop body of `DuplicateRemover.analyze` for the
index pair `(i, k)`: compute `sim`; if `sim > 0.99`, append the record to
`returndata` unless both pages have image data and the two digest lists are
unequal (Python list equality `images[i] == images[k]`, order-sensitive).
The `if k == i: pass` branch of the source is dead code because the inner
enumeration starts at `i + 1`. -/
def innerPair (texts : List (List Char)) (images : List (List ℕ)) (i k : ℕ) :
    Option Result_Dict :=
  let sim := normalized_similarity (texts.getD i []) (texts.getD k [])
  if sim > mkRat 99 100 then
    if images.getD i [] ≠ [] ∧ images.getD k [] ≠ [] then
      if images.getD i [] = images.getD k [] then some ⟨i, k, sim⟩ else none
    else some ⟨i, k, sim⟩
  else none

/-- The `returndata` list built by `DuplicateRemover.analyze`: the outer loop
enumerates `i` over all pages, the inner loop enumerates
`k, next_text` over `enumerate(texts[i+1:], start=i+1)`, i.e. `k` ranges over
`i+1, …, len(texts)-1`. -/
def candidates (texts : List (List Char)) (images : List (List ℕ)) :
    List Result_Dict :=
  (List.range texts.length).flatMap fun i =>
    (List.range' (i + 1) (texts.length - (i + 1))).filterMap fun k =>
      innerPair texts images i k

/-- The index pairs appended to the `finished` list of `analyze` (each such
pair contributes two entries to `finished`; only nonemptiness matters):
exactly the pairs whose text similarity exceeds `0.99`. -/
def textCandidatePairs (texts : List (List Char)) : List (ℕ × ℕ) :=
  (List.range texts.length).flatMap fun i =>
    (List.range' (i + 1) (texts.length - (i + 1))).filterMap fun k =>
      if normalized_similarity (texts.getD i []) (texts.getD k []) > mkRat 99 100 then
        some (i, k)
      else none

/-- The index pairs `(i, k)` compared by the nested loops of `analyze`
(one similarity computation each). -/
def comparedPairs (texts : List (List Char)) : List (ℕ × ℕ) :=
  (List.range texts.length).flatMap fun i =>
    (List.range' (i + 1) (texts.length - (i + 1))).map fun k => (i, k)

/-- Embedding of `DuplicateRemover.analyze`: returns `returndata` when
`finished` is nonempty, and `None` otherwise. -/
def analyze (texts : List (List Char)) (images : List (List ℕ)) :
    Option (List Result_Dict) :=
  if textCandidatePairs texts = [] then none else some (candidates texts images)

/-- In `DuplicateRemover.__call__` the assembler `delete_duplicates` runs
exactly when `analyze` returned something other than `None`
(`if result is not None: self.delete_duplicates(reader, result)`). -/
def assemblerInvoked (texts : List (List Char)) (images : List (List ℕ)) : Bool :=
  (analyze texts images).isSome

/-- The accumulation loop of `delete_duplicates` that builds the `deleted`
list, started from an arbitrary accumulator:
`for e in data: if e["py"] not in deleted: deleted.append(e["py"])`. -/
def resolveFrom (acc : List ℕ) (data : List Result_Dict) : List ℕ :=
  data.foldl (fun ds e => if e.py ∈ ds then ds else ds ++ [e.py]) acc

/-- The `deleted` list of `delete_duplicates` (accumulator starts empty). -/
def deletedList (data : List Result_Dict) : List ℕ :=
  resolveFrom [] data

/-- The page-copying loop of `delete_duplicates`: traverse the original pages
with their indices and append to the output every page whose index is not in
`deleted`. -/
def buildOutput {α : Type} (pages : List α) (deleted : List ℕ) : List α :=
  pages.enum.foldl (fun out p => if p.1 ∈ deleted then out else out ++ [p.2]) []

/-- Embedding of `DuplicateRemover.delete_duplicates`: compute `deleted` from
the analysis results, then emit the surviving pages. -/
def delete_duplicates {α : Type} (pages : List α) (data : List Result_Dict) :
    List α :=
  buildOutput pages (deletedList data)

/-! ### Helper lemmas -/

/-- The division-branch value is literally the quotient of intersection size by
union size (`mkRat` is used in the definition only because it computes in the
kernel; `Rat.mkRat_eq_div` identifies the two). -/
theorem normalized_similarity_eq_div (a b : List Char) :
    normalized_similarity a b =
      if a = b then 1
      else if a = [] ∨ b = [] then 0
      else (interCount a b : ℚ) / (unionCount a b : ℚ) := by
  simp only [normalized_similarity, Rat.mkRat_eq_div]
  norm_num

/-- The threshold constant used in the embedding is the literal `0.99`. -/
theorem threshold_eq : mkRat 99 100 = (99 : ℚ) / 100 := by
  rw [Rat.mkRat_eq_div]
  norm_num

theorem interCount_le_unionCount (a b : List Char) :
    interCount a b ≤ unionCount a b :=
  Multiset.card_le_card
    (le_trans (Multiset.inter_le_left _ _) (Multiset.le_union_left _ _))

theorem normalized_similarity_self (a : List Char) :
    normalized_similarity a a = 1 := by
  simp [normalized_similarity]

theorem normalized_similarity_nonneg (a b : List Char) :
    0 ≤ normalized_similarity a b := by
  rw [normalized_similarity_eq_div]
  split_ifs
  · norm_num
  · norm_num
  · positivity

theorem normalized_similarity_le_one (a b : List Char) :
    normalized_similarity a b ≤ 1 := by
  rw [normalized_similarity_eq_div]
  split_ifs
  · norm_num
  · norm_num
  · exact div_le_one_of_le₀
      (by exact_mod_cast interCount_le_unionCount a b) (by positivity)

/-- Full characterization of one inner-loop iteration of `analyze`. -/
theorem innerPair_eq_some_iff (texts : List (List Char))
    (images : List (List ℕ)) (i k : ℕ) (e : Result_Dict) :
    innerPair texts images i k = some e ↔
      e = ⟨i, k, normalized_similarity (texts.getD i []) (texts.getD k [])⟩ ∧
        mkRat 99 100 < normalized_similarity (texts.getD i []) (texts.getD k []) ∧
        (images.getD i [] = [] ∨ images.getD k [] = [] ∨
          images.getD i [] = images.getD k []) := by
  simp only [innerPair]
  split_ifs with h1 h2 h3 <;> simp_all <;> tauto

/-- Membership in `returndata`: exactly the in-range ordered pairs whose
inner-loop iteration produced a record. -/
theorem mem_candidates_iff (texts : List (List Char)) (images : List (List ℕ))
    (e : Result_Dict) :
    e ∈ candidates texts images ↔
      e.px < e.py ∧ e.py < texts.length ∧
        innerPair texts images e.px e.py = some e := by
  unfold candidates
  rw [List.mem_flatMap]
  constructor
  · rintro ⟨i, hi, hmem⟩
    rw [List.mem_filterMap] at hmem
    obtain ⟨k, hk, hsome⟩ := hmem
    rw [List.mem_range] at hi
    rw [List.mem_range'_1] at hk
    obtain ⟨he1, -, -⟩ := (innerPair_eq_some_iff texts images i k e).mp hsome
    have hpx : e.px = i := by rw [he1]
    have hpy : e.py = k := by rw [he1]
    rw [hpx, hpy]
    exact ⟨by omega, by omega, hsome⟩
  · rintro ⟨hlt, hlen, hsome⟩
    refine ⟨e.px, List.mem_range.mpr (by omega), ?_⟩
    rw [List.mem_filterMap]
    exact ⟨e.py, List.mem_range'_1.mpr (by omega), hsome⟩

/-- Membership in the list of text-candidate pairs (`finished` entries). -/
theorem mem_textCandidatePairs_iff (texts : List (List Char)) (p : ℕ × ℕ) :
    p ∈ textCandidatePairs texts ↔
      p.1 < p.2 ∧ p.2 < texts.length ∧
        mkRat 99 100 <
          normalized_similarity (texts.getD p.1 []) (texts.getD p.2 []) := by
  obtain ⟨a, b⟩ := p
  unfold textCandidatePairs
  rw [List.mem_flatMap]
  constructor
  · rintro ⟨i, hi, hmem⟩
    rw [List.mem_filterMap] at hmem
    obtain ⟨k, hk, hsome⟩ := hmem
    rw [List.mem_range] at hi
    rw [List.mem_range'_1] at hk
    split_ifs at hsome with hsim
    simp only [Option.some.injEq, Prod.mk.injEq] at hsome
    obtain ⟨rfl, rfl⟩ := hsome
    exact ⟨by omega, by omega, hsim⟩
  · rintro ⟨hab, hb, hsim⟩
    refine ⟨a, List.mem_range.mpr (by omega), ?_⟩
    rw [List.mem_filterMap]
    refine ⟨b, List.mem_range'_1.mpr (by omega), ?_⟩
    rw [if_pos hsim]

/-- Membership in the list of compared index pairs. -/
theorem mem_comparedPairs_iff (texts : List (List Char)) (p : ℕ × ℕ) :
    p ∈ comparedPairs texts ↔ p.1 < p.2 ∧ p.2 < texts.length := by
  obtain ⟨a, b⟩ := p
  unfold comparedPairs
  rw [List.mem_flatMap]
  constructor
  · rintro ⟨i, hi, hmem⟩
    rw [List.mem_map] at hmem
    obtain ⟨k, hk, hsome⟩ := hmem
    rw [List.mem_range] at hi
    rw [List.mem_range'_1] at hk
    simp only [Prod.mk.injEq] at hsome
    obtain ⟨rfl, rfl⟩ := hsome
    exact ⟨by omega, by omega⟩
  · rintro ⟨hab, hb⟩
    refine ⟨a, List.mem_range.mpr (by omega), ?_⟩
    rw [List.mem_map]
    exact ⟨b, List.mem_range'_1.mpr (by omega), rfl⟩

/-- Membership after the `deleted`-building loop, for any starting
accumulator. -/
theorem mem_resolveFrom_iff (data : List Result_Dict) (acc : List ℕ) (x : ℕ) :
    x ∈ resolveFrom acc data ↔ x ∈ acc ∨ ∃ e ∈ data, e.py = x := by
  induction data generalizing acc with
  | nil => simp [resolveFrom]
  | cons e t ih =>
    have hstep : resolveFrom acc (e :: t)
        = resolveFrom (if e.py ∈ acc then acc else acc ++ [e.py]) t := rfl
    rw [hstep, ih]
    by_cases h : e.py ∈ acc
    · rw [if_pos h]
      constructor
      · rintro (hx | ⟨f, hf, hfx⟩)
        · exact Or.inl hx
        · exact Or.inr ⟨f, List.mem_cons_of_mem e hf, hfx⟩
      · rintro (hx | ⟨f, hf, hfx⟩)
        · exact Or.inl hx
        · rcases List.mem_cons.mp hf with rfl | hf'
          · exact Or.inl (hfx ▸ h)
          · exact Or.inr ⟨f, hf', hfx⟩
    · rw [if_neg h]
      constructor
      · rintro (hx | ⟨f, hf, hfx⟩)
        · rcases List.mem_append.mp hx with hx' | hx'
          · exact Or.inl hx'
          · exact Or.inr ⟨e, List.mem_cons_self e t,
              (List.mem_singleton.mp hx').symm⟩
        · exact Or.inr ⟨f, List.mem_cons_of_mem e hf, hfx⟩
      · rintro (hx | ⟨f, hf, hfx⟩)
        · exact Or.inl (List.mem_append.mpr (Or.inl hx))
        · rcases List.mem_cons.mp hf with rfl | hf'
          · exact Or.inl (List.mem_append.mpr
              (Or.inr (List.mem_singleton.mpr hfx.symm)))
          · exact Or.inr ⟨f, hf', hfx⟩

/-- Membership in the `deleted` list: exactly the higher indices `py` of the
analysis records. -/
theorem mem_deletedList_iff (data : List Result_Dict) (x : ℕ) :
    x ∈ deletedList data ↔ ∃ e ∈ data, e.py = x := by
  rw [deletedList, mem_resolveFrom_iff]
  simp

/-- Running the `deleted`-building loop from an accumulator that already
contains every `py` of the data leaves the accumulator unchanged. -/
theorem resolveFrom_eq_of_mem (data : List Result_Dict) (acc : List ℕ)
    (h : ∀ e ∈ data, e.py ∈ acc) : resolveFrom acc data = acc := by
  induction data generalizing acc with
  | nil => rfl
  | cons e t ih =>
    have hstep : resolveFrom acc (e :: t)
        = resolveFrom (if e.py ∈ acc then acc else acc ++ [e.py]) t := rfl
    rw [hstep, if_pos (h e (List.mem_cons_self e t))]
    exact ih acc fun f hf => h f (List.mem_cons_of_mem e hf)

/-- The page-copying fold, from any accumulator, appends exactly the
non-deleted pages in order. -/
theorem foldl_pages_eq_filter {α : Type} (l : List (ℕ × α)) (deleted : List ℕ)
    (acc : List α) :
    l.foldl (fun out p => if p.1 ∈ deleted then out else out ++ [p.2]) acc
      = acc ++ (l.filter fun p => p.1 ∉ deleted).map Prod.snd := by
  induction l generalizing acc with
  | nil => simp
  | cons p t ih =>
    by_cases h : p.1 ∈ deleted <;>
      simp [h, ih, List.filter_cons]

/-- The assembler loop equals a filter of the enumerated pages. -/
theorem buildOutput_eq_filter {α : Type} (pages : List α) (deleted : List ℕ) :
    buildOutput pages deleted
      = (pages.enum.filter fun p => p.1 ∉ deleted).map Prod.snd := by
  rw [buildOutput, foldl_pages_eq_filter]
  simp

/-! ### Claims -/

/-- C9: the text-similarity metric is symmetric: for every two strings `A`
and `B`, `similarity(A, B)` equals `similarity(B, A)`. -/
theorem C9_similarity_symm (a b : List Char) :
    normalized_similarity a b = normalized_similarity b a := by
  rcases eq_or_ne a b with rfl | hne
  · rfl
  · unfold normalized_similarity
    rw [if_neg hne, if_neg (Ne.symm hne)]
    by_cases he : a = [] ∨ b = []
    · rw [if_pos he, if_pos he.symm]
    · rw [if_neg he, if_neg fun hc => he hc.symm]
      simp only [interCount, unionCount]
      rw [Multiset.inter_comm (a : Multiset Char) (b : Multiset Char),
        Multiset.union_comm (a : Multiset Char) (b : Multiset Char)]

/-- C4: every record in `returndata` has two distinct valid page indices with
`px < py`, a similarity score in `[0, 1]`, and a score strictly above the
threshold `0.99`. -/
theorem C4_candidate_invariants (texts : List (List Char))
    (images : List (List ℕ)) (e : Result_Dict)
    (he : e ∈ candidates texts images) :
    e.px < e.py ∧ e.py < texts.length ∧ 0 ≤ e.sim ∧ e.sim ≤ 1 ∧
      (99 : ℚ) / 100 < e.sim := by
  obtain ⟨hlt, hlen, hip⟩ := (mem_candidates_iff _ _ _).mp he
  obtain ⟨he1, hsim, -⟩ := (innerPair_eq_some_iff _ _ _ _ _).mp hip
  have hs : e.sim
      = normalized_similarity (texts.getD e.px []) (texts.getD e.py []) := by
    rw [he1]
  refine ⟨hlt, hlen, ?_, ?_, ?_⟩ <;> rw [hs]
  · exact normalized_similarity_nonneg _ _
  · exact normalized_similarity_le_one _ _
  · rw [← threshold_eq]
    exact hsim

/-- C4 witness: on two pages with text "a" and no images, the single produced
record is `{px := 0, py := 1, sim := 1}` and satisfies the invariant. -/
theorem C4_witness :
    (0 : ℕ) < 1 ∧ (1 : ℕ) < 2 ∧ (0 : ℚ) ≤ 1 ∧ (1 : ℚ) ≤ 1 ∧
      (99 : ℚ) / 100 < (1 : ℚ) :=
  C4_candidate_invariants [['a'], ['a']] [[], []] ⟨0, 1, 1⟩ (by decide)

/-- C5: for every page sequence and every deletion set, the assembler loop
produces exactly the pages whose original index is not in the deletion set,
in their original relative order and with unchanged content. -/
theorem C5_assembler_filter {α : Type} (pages : List α) (deleted : List ℕ) :
    buildOutput pages deleted
      = (pages.enum.filter fun p => p.1 ∉ deleted).map Prod.snd :=
  buildOutput_eq_filter pages deleted

/-- C6: on a document with 0 or 1 pages no pairwise comparison happens,
`analyze` reports no duplicates, and the deletion set is empty. -/
theorem C6_small_input_noop (texts : List (List Char)) (images : List (List ℕ))
    (h : texts.length ≤ 1) :
    comparedPairs texts = [] ∧ analyze texts images = none ∧
      deletedList (candidates texts images) = [] := by
  have hcand : candidates texts images = [] := by
    rw [List.eq_nil_iff_forall_not_mem]
    intro e he
    obtain ⟨h1, h2, -⟩ := (mem_candidates_iff _ _ _).mp he
    omega
  have htc : textCandidatePairs texts = [] := by
    rw [List.eq_nil_iff_forall_not_mem]
    intro p hp
    obtain ⟨h1, h2, -⟩ := (mem_textCandidatePairs_iff _ _).mp hp
    omega
  refine ⟨?_, ?_, ?_⟩
  · rw [List.eq_nil_iff_forall_not_mem]
    intro p hp
    obtain ⟨h1, h2⟩ := (mem_comparedPairs_iff _ _).mp hp
    omega
  · rw [analyze, if_pos htc]
  · rw [hcand]
    rfl

/-- C6 witness: a one-page document. -/
theorem C6_witness :
    comparedPairs [['a']] = [] ∧ analyze [['a']] [[]] = none ∧
      deletedList (candidates [['a']] [[]]) = [] :=
  C6_small_input_noop [['a']] [[]] (by decide)

/-- C7: resolution is idempotent: re-running the `deleted`-building loop on
the same candidate list, starting from the deletion set it already produced,
returns that deletion set unchanged (and the loop is deterministic, so a
second from-scratch computation is literally the first). -/
theorem C7_resolution_idempotent (data : List Result_Dict) :
    resolveFrom (deletedList data) data = deletedList data := by
  apply resolveFrom_eq_of_mem
  intro e he
  rw [mem_deletedList_iff]
  exact ⟨e, he, rfl⟩

/-- C1 counterexample: two pages with identical text, whose image-hash
collections contain the same two hashes in a different order (equal as sets,
equal cardinality), are NOT promoted: `analyze` compares the digest lists with
Python list equality `images[i] == images[k]`, which is order-sensitive, so
`returndata` stays empty. -/
theorem C1_counterexample :
    ([1, 2] : List ℕ).Perm [2, 1] ∧
      mkRat 99 100 < normalized_similarity ['a'] ['a'] ∧
      ([1, 2] : List ℕ) ≠ [] ∧ ([2, 1] : List ℕ) ≠ [] ∧
      candidates [['a'], ['a']] [[1, 2], [2, 1]] = [] := by decide

/-- C1 (amended): for a pair `i < k` above the similarity threshold where both
pages have at least one image hash, the pair is promoted to a candidate if and
only if the two image-hash lists are equal as ordered lists (element-wise, in
extraction order); the same hashes in a different order are NOT promoted. -/
theorem C1_promotion_iff_list_eq (texts : List (List Char))
    (images : List (List ℕ)) (i k : ℕ) (hik : i < k) (hk : k < texts.length)
    (hsim : (99 : ℚ) / 100 <
      normalized_similarity (texts.getD i []) (texts.getD k []))
    (hi : images.getD i [] ≠ []) (hki : images.getD k [] ≠ []) :
    (∃ e ∈ candidates texts images, e.px = i ∧ e.py = k) ↔
      images.getD i [] = images.getD k [] := by
  rw [← threshold_eq] at hsim
  constructor
  · rintro ⟨e, he, hpx, hpy⟩
    obtain ⟨-, -, hip⟩ := (mem_candidates_iff _ _ _).mp he
    rw [hpx, hpy] at hip
    obtain ⟨-, -, hd⟩ := (innerPair_eq_some_iff _ _ _ _ _).mp hip
    rcases hd with hd | hd | hd
    · exact absurd hd hi
    · exact absurd hd hki
    · exact hd
  · intro heq
    refine ⟨⟨i, k, normalized_similarity (texts.getD i []) (texts.getD k [])⟩,
      ?_, rfl, rfl⟩
    rw [mem_candidates_iff]
    refine ⟨hik, hk, ?_⟩
    rw [innerPair_eq_some_iff]
    exact ⟨rfl, hsim, Or.inr (Or.inr heq)⟩

/-- C1 witness: two pages with text "a" and the same single image hash are
promoted; the iff holds at this concrete input. -/
theorem C1_witness :
    (∃ e ∈ candidates [['a'], ['a']] [[5], [5]], e.px = 0 ∧ e.py = 1) ↔
      ([5] : List ℕ) = [5] :=
  C1_promotion_iff_list_eq [['a'], ['a']] [[5], [5]] 0 1 (by decide) (by decide)
    (by
      rw [show normalized_similarity ([['a'], ['a']].getD 0 [])
          ([['a'], ['a']].getD 1 []) = 1 from by decide]
      norm_num)
    (by decide) (by decide)

/-- C2 counterexample: two pages with identical text "a" and different single
image hashes. The text-candidate pair exists, image corroboration fails for it,
`returndata` is empty — yet `analyze` returns the empty list (not `None`,
because `finished` is nonempty), so `__call__` DOES invoke the assembler,
contradicting the claim that it is not invoked. -/
theorem C2_counterexample :
    textCandidatePairs [['a'], ['a']] ≠ [] ∧
      candidates [['a'], ['a']] [[1], [2]] = [] ∧
      analyze [['a'], ['a']] [[1], [2]] = some [] ∧
      assemblerInvoked [['a'], ['a']] [[1], [2]] = true := by decide

/-- C2 (amended): the assembler is skipped exactly when no text-candidate pair
was found at all (`analyze` returns `None` iff `finished` stayed empty). When
text-candidates existed but every one failed image corroboration, `analyze`
returns an empty list, the assembler IS invoked, and it reproduces every page
of the input unchanged. -/
theorem C2_assembler_invocation (texts : List (List Char))
    (images : List (List ℕ)) :
    (assemblerInvoked texts images = false ↔ textCandidatePairs texts = []) ∧
      (candidates texts images = [] →
        ∀ pages : List ℕ,
          delete_duplicates pages (candidates texts images) = pages) := by
  constructor
  · unfold assemblerInvoked analyze
    by_cases h : textCandidatePairs texts = [] <;> simp [h]
  · intro hc pages
    rw [delete_duplicates, hc]
    show buildOutput pages [] = pages
    rw [buildOutput_eq_filter]
    simp [List.enum_map_snd]

/-- C2 witness: at the counterexample input the assembler is invoked (the iff
is settled negatively on both sides) and the produced document keeps both
pages. -/
theorem C2_witness :
    (assemblerInvoked [['a'], ['a']] [[1], [2]] = false ↔
      textCandidatePairs [['a'], ['a']] = []) ∧
      delete_duplicates [7, 8] (candidates [['a'], ['a']] [[1], [2]]) = [7, 8] :=
  ⟨(C2_assembler_invocation [['a'], ['a']] [[1], [2]]).1,
    (C2_assembler_invocation [['a'], ['a']] [[1], [2]]).2 (by decide) [7, 8]⟩

/-- C3: for any set `S` of page indices that are pairwise promoted as
candidates, every member with a smaller fellow member ends up in the deletion
set, while the minimum member is never the deleted side (`py`) of any
within-cluster pair — exactly the minimum index survives the cluster. -/
theorem C3_cluster_min_survives (texts : List (List Char))
    (images : List (List ℕ)) (S : Finset ℕ)
    (hS : ∀ i ∈ S, ∀ k ∈ S, i < k →
      ∃ e ∈ candidates texts images, e.px = i ∧ e.py = k) :
    (∀ m ∈ S, (∃ i ∈ S, i < m) →
        m ∈ deletedList (candidates texts images)) ∧
      (∀ m ∈ S, (∀ j ∈ S, m ≤ j) →
        ∀ e ∈ candidates texts images, e.px ∈ S → e.py ∈ S → e.py ≠ m) := by
  constructor
  · rintro m hm ⟨i, hi, him⟩
    obtain ⟨e, he, hpx, hpy⟩ := hS i hi m hm him
    rw [mem_deletedList_iff]
    exact ⟨e, he, hpy⟩
  · rintro m hm hmin e he hpxS hpyS hpym
    have hlt : e.px < e.py := ((mem_candidates_iff _ _ _).mp he).1
    have hle := hmin e.px hpxS
    omega

/-- C3 witness: three pages with identical text "a" and no images form a
cluster `{0, 1, 2}`; pages 1 and 2 are deleted (page 0, the minimum, is kept).
-/
theorem C3_witness :
    1 ∈ deletedList (candidates [['a'], ['a'], ['a']] [[], [], []]) ∧
      2 ∈ deletedList (candidates [['a'], ['a'], ['a']] [[], [], []]) := by
  have h := C3_cluster_min_survives [['a'], ['a'], ['a']] [[], [], []]
    ({0, 1, 2} : Finset ℕ) (by decide)
  exact ⟨h.1 1 (by decide) ⟨0, by decide, by decide⟩,
    h.1 2 (by decide) ⟨0, by decide, by decide⟩⟩

/-- C8: two pages `i < k` with identical extracted text (so similarity 1,
above the threshold) where at least one page has zero image hashes are
promoted on text similarity alone — also when the other page has images. -/
theorem C8_text_only_promotion (texts : List (List Char))
    (images : List (List ℕ)) (i k : ℕ) (hik : i < k) (hk : k < texts.length)
    (htext : texts.getD i [] = texts.getD k [])
    (himg : images.getD i [] = [] ∨ images.getD k [] = []) :
    ∃ e ∈ candidates texts images, e.px = i ∧ e.py = k ∧ e.sim = 1 := by
  have hsim : normalized_similarity (texts.getD i []) (texts.getD k []) = 1 := by
    rw [htext, normalized_similarity_self]
  refine ⟨⟨i, k, normalized_similarity (texts.getD i []) (texts.getD k [])⟩,
    ?_, rfl, rfl, hsim⟩
  rw [mem_candidates_iff]
  refine ⟨hik, hk, ?_⟩
  rw [innerPair_eq_some_iff]
  refine ⟨rfl, ?_, ?_⟩
  · rw [hsim, threshold_eq]
    norm_num
  · rcases himg with h | h
    · exact Or.inl h
    · exact Or.inr (Or.inl h)

/-- C8 witness: page 0 has no images, page 1 has one; identical text "a"
promotes the pair anyway. -/
theorem C8_witness :
    ∃ e ∈ candidates [['a'], ['a']] [[], [7]], e.px = 0 ∧ e.py = 1 ∧
      e.sim = 1 :=
  C8_text_only_promotion [['a'], ['a']] [[], [7]] 0 1 (by decide) (by decide)
    rfl (Or.inl rfl)

/-- C10: two pages that both have empty extracted text and no images get
similarity `1` (the code's empty-vs-empty convention, above the threshold),
are promoted to a candidate pair, and the higher-indexed blank page is put in
the deletion set. -/
theorem C10_blank_pages_duplicates (texts : List (List Char))
    (images : List (List ℕ)) (i k : ℕ) (hik : i < k) (hk : k < texts.length)
    (hti : texts.getD i [] = []) (htk : texts.getD k [] = [])
    (hii : images.getD i [] = []) (_hki : images.getD k [] = []) :
    normalized_similarity (texts.getD i []) (texts.getD k []) = 1 ∧
      (∃ e ∈ candidates texts images, e.px = i ∧ e.py = k ∧ e.sim = 1) ∧
      k ∈ deletedList (candidates texts images) := by
  have hsim : normalized_similarity (texts.getD i []) (texts.getD k []) = 1 := by
    rw [hti, htk]
    exact normalized_similarity_self []
  have hmem : (⟨i, k,
      normalized_similarity (texts.getD i []) (texts.getD k [])⟩ : Result_Dict)
      ∈ candidates texts images := by
    rw [mem_candidates_iff]
    refine ⟨hik, hk, ?_⟩
    rw [innerPair_eq_some_iff]
    refine ⟨rfl, ?_, Or.inl hii⟩
    rw [hsim, threshold_eq]
    norm_num
  refine ⟨hsim, ⟨_, hmem, rfl, rfl, hsim⟩, ?_⟩
  rw [mem_deletedList_iff]
  exact ⟨_, hmem, rfl⟩

/-- C10 witness: a two-page document with blank pages; page 1 is marked for
deletion. -/
theorem C10_witness :
    normalized_similarity ([[], []].getD 0 []) ([[], []].getD 1 []) = 1 ∧
      (∃ e ∈ candidates [[], []] [[], []], e.px = 0 ∧ e.py = 1 ∧ e.sim = 1) ∧
      1 ∈ deletedList (candidates [[], []] [[], []]) :=
  C10_blank_pages_duplicates [[], []] [[], []] 0 1 (by decide) (by decide)
    rfl rfl rfl rfl
